import Mathlib

/-!
Shallow embedding of the number-theoretic core of the `pyutils` repository
(`src/math/functions.py` and `src/math/sequences.py`): the extended Euclidean
algorithm, the Dirichlet-convolution combinators, the Stern-Brocot ceiling
search and the Farey-sequence generator, together with proofs of the
specification claims about them.

Python's `divmod` on integers performs floor division, which is exactly the
rounding convention of `Int.fdiv` / `Int.fmod`.
-/

namespace Pyutils

/-! ### Extended Euclidean algorithm (`functions.py`, `extended_gcd`) -/

/-- Auxiliary termination fact: the floor remainder strictly shrinks in
absolute value, for every sign of the divisor. -/
theorem natAbs_fmod_lt (a b : ℤ) (hb : b ≠ 0) : (Int.fmod a b).natAbs < b.natAbs := by
  rcases b with nb | nb
  · -- nonnegative divisor
    have hnb : nb ≠ 0 := by
      intro h
      exact hb (by simp [h])
    have hpos : (0 : ℤ) < Int.ofNat nb := by
      rw [Int.ofNat_eq_natCast]
      omega
    have h1 : 0 ≤ Int.fmod a (Int.ofNat nb) := Int.fmod_nonneg' a hpos
    have h2 : Int.fmod a (Int.ofNat nb) < Int.ofNat nb := Int.fmod_lt_of_pos a hpos
    rw [Int.ofNat_eq_natCast] at h1 h2 ⊢
    omega
  · -- negative divisor: compute the remainder case by case on `a`
    rcases a with ma | ma
    · rcases ma with _ | ma
      · simp
      · have hred : Int.fmod (Int.ofNat (ma + 1)) (Int.negSucc nb)
            = Int.subNatNat (ma % (nb + 1)) nb := rfl
        have hmod : ma % (nb + 1) < nb + 1 := Nat.mod_lt _ (Nat.succ_pos nb)
        rw [hred, Int.subNatNat_eq_coe, Int.natAbs_negSucc]
        omega
    · have hred : Int.fmod (Int.negSucc ma) (Int.negSucc nb)
          = -Int.ofNat ((ma + 1) % (nb + 1)) := rfl
      have hmod : (ma + 1) % (nb + 1) < nb + 1 := Nat.mod_lt _ (Nat.succ_pos nb)
      rw [hred, Int.natAbs_negSucc, Int.ofNat_eq_natCast]
      omega

/-- Replacing `a` by its floor remainder modulo `b` preserves the gcd. -/
theorem gcd_fmod (a b : ℤ) : Int.gcd b (Int.fmod a b) = Int.gcd a b := by
  rw [Int.fmod_def]
  apply Nat.dvd_antisymm
  · have h1 : (↑(Int.gcd b (a - b * Int.fdiv a b)) : ℤ) ∣ b := Int.gcd_dvd_left
    have h2 : (↑(Int.gcd b (a - b * Int.fdiv a b)) : ℤ) ∣ a - b * Int.fdiv a b :=
      Int.gcd_dvd_right
    have h3 : (↑(Int.gcd b (a - b * Int.fdiv a b)) : ℤ) ∣ a := by
      have := dvd_add h2 (h1.mul_right (Int.fdiv a b))
      simpa using this
    exact_mod_cast Int.natCast_dvd_natCast.mp (Int.dvd_gcd h3 h1)
  · have h1 : (↑(Int.gcd a b) : ℤ) ∣ a := Int.gcd_dvd_left
    have h2 : (↑(Int.gcd a b) : ℤ) ∣ b := Int.gcd_dvd_right
    have h3 : (↑(Int.gcd a b) : ℤ) ∣ a - b * Int.fdiv a b :=
      dvd_sub h1 (h2.mul_right (Int.fdiv a b))
    exact_mod_cast Int.natCast_dvd_natCast.mp (Int.dvd_gcd h2 h3)

/-- Loop of `extended_gcd` (the `while b:` loop of `functions.py`): state is
`(a, b, x1, y1, x2, y2)`; each step performs `divmod(a, b)` (floor division,
as in Python) and updates both coefficient pairs. Returns `(a, x1, x2)` once
`b` reaches zero. -/
def egcdLoop (a b x1 y1 x2 y2 : ℤ) : ℤ × ℤ × ℤ :=
  if hb : b = 0 then (a, x1, x2)
  else
    egcdLoop b (Int.fmod a b) y1 (x1 - Int.fdiv a b * y1) y2 (x2 - Int.fdiv a b * y2)
termination_by b.natAbs
decreasing_by exact natAbs_fmod_lt a b hb

theorem egcdLoop_zero (a x1 y1 x2 y2 : ℤ) : egcdLoop a 0 x1 y1 x2 y2 = (a, x1, x2) := by
  rw [egcdLoop]
  simp

theorem egcdLoop_ne (a b x1 y1 x2 y2 : ℤ) (hb : b ≠ 0) :
    egcdLoop a b x1 y1 x2 y2
      = egcdLoop b (Int.fmod a b) y1 (x1 - Int.fdiv a b * y1) y2 (x2 - Int.fdiv a b * y2) := by
  conv_lhs => rw [egcdLoop]
  simp [hb]

/-- Result record of `extended_gcd` (the `Euclidean` namedtuple). -/
structure Euclidean where
  gcd : ℤ
  x : ℤ
  y : ℤ
deriving DecidableEq, Repr

/-- Implementation of the extended Euclidean algorithm
(`functions.py`, lines 109-122). -/
def extended_gcd (a b : ℤ) : Euclidean :=
  let r := egcdLoop a b 1 0 0 1
  let sign : ℤ := if 0 < r.1 then 1 else -1
  ⟨sign * r.1, sign * r.2.1, sign * r.2.2⟩

/-- Invariants of the Euclidean loop: both coefficient pairs express the
current `a` and `b` as integer combinations of the original inputs, and the
gcd of the pair `(a, b)` is preserved; consequently the final triple
`(g, u, v)` satisfies `A*u + B*v = g` and `|g| = gcd(A, B)`. -/
theorem egcdLoop_spec (A B : ℤ) : ∀ (N : ℕ) (a b x1 y1 x2 y2 : ℤ), b.natAbs ≤ N →
    A * x1 + B * x2 = a → A * y1 + B * y2 = b →
    A * (egcdLoop a b x1 y1 x2 y2).2.1 + B * (egcdLoop a b x1 y1 x2 y2).2.2
        = (egcdLoop a b x1 y1 x2 y2).1
      ∧ ((egcdLoop a b x1 y1 x2 y2).1).natAbs = Int.gcd a b := by
  intro N
  induction N with
  | zero =>
    intro a b x1 y1 x2 y2 hN ha hbeq
    have hb : b = 0 := by omega
    subst hb
    rw [egcdLoop_zero]
    exact ⟨ha, by rw [Int.gcd_zero_right]⟩
  | succ N ih =>
    intro a b x1 y1 x2 y2 hN ha hbeq
    by_cases hb : b = 0
    · subst hb
      rw [egcdLoop_zero]
      exact ⟨ha, by rw [Int.gcd_zero_right]⟩
    · rw [egcdLoop_ne a b x1 y1 x2 y2 hb]
      have hfuel : (Int.fmod a b).natAbs ≤ N := by
        have := natAbs_fmod_lt a b hb
        omega
      have hmod : A * (x1 - Int.fdiv a b * y1) + B * (x2 - Int.fdiv a b * y2)
          = Int.fmod a b := by
        rw [Int.fmod_def]
        linear_combination ha - Int.fdiv a b * hbeq
      obtain ⟨h1, h2⟩ := ih b (Int.fmod a b) y1 (x1 - Int.fdiv a b * y1)
        y2 (x2 - Int.fdiv a b * y2) hfuel hbeq hmod
      exact ⟨h1, by rw [h2, gcd_fmod]⟩

/-- C1: for every pair of integers `a`, `b` not both zero, `extended_gcd a b`
returns a triple `(d, x, y)` with `a*x + b*y = d`, where `d` is the
non-negative gcd of `|a|` and `|b|`, for all sign combinations of `a` and
`b`. -/
theorem extended_gcd_spec (a b : ℤ) (h : ¬(a = 0 ∧ b = 0)) :
    a * (extended_gcd a b).x + b * (extended_gcd a b).y = (extended_gcd a b).gcd
      ∧ (extended_gcd a b).gcd = (Nat.gcd a.natAbs b.natAbs : ℤ)
      ∧ 0 ≤ (extended_gcd a b).gcd := by
  clear h
  obtain ⟨h1, h2⟩ := egcdLoop_spec a b b.natAbs a b 1 0 0 1 le_rfl (by ring) (by ring)
  set r := egcdLoop a b 1 0 0 1 with hr
  have hgcd : Int.gcd a b = Nat.gcd a.natAbs b.natAbs := rfl
  by_cases hpos : 0 < r.1
  · have hsign : extended_gcd a b = ⟨r.1, r.2.1, r.2.2⟩ := by
      rw [extended_gcd, ← hr]
      simp [hpos]
    rw [hsign]
    dsimp only
    refine ⟨h1, ?_, ?_⟩
    · rw [← hgcd, ← h2]
      omega
    · omega
  · have hsign : extended_gcd a b = ⟨-r.1, -r.2.1, -r.2.2⟩ := by
      rw [extended_gcd, ← hr]
      simp only [hpos, if_false]
      norm_num
    rw [hsign]
    dsimp only
    refine ⟨by linear_combination -h1, ?_, ?_⟩
    · rw [← hgcd, ← h2]
      omega
    · omega

/-- Witness for C1: the concrete scenario from the specification,
`extended_gcd 240 46`. -/
theorem extended_gcd_spec_witness :
    (240 : ℤ) * (extended_gcd 240 46).x + 46 * (extended_gcd 240 46).y
        = (extended_gcd 240 46).gcd
      ∧ (extended_gcd 240 46).gcd = (Nat.gcd (Int.natAbs 240) (Int.natAbs 46) : ℤ)
      ∧ 0 ≤ (extended_gcd 240 46).gcd :=
  extended_gcd_spec 240 46 (by decide)

/-- Evaluation of `extended_gcd` at the input `(0, 0)`: the `while` loop is
skipped, the sign normalization picks `-1`, and the call returns normally. -/
theorem egcd_zero_zero_eval : extended_gcd 0 0 = ⟨0, -1, 0⟩ := by
  rw [extended_gcd, egcdLoop_zero]
  norm_num

/-- C7 counterexample: `extended_gcd 0 0` does not fail; it returns the
concrete triple `(0, -1, 0)`. -/
theorem extended_gcd_zero_zero : extended_gcd 0 0 = ⟨0, -1, 0⟩ :=
  egcd_zero_zero_eval

/-- C7 amended: called with both arguments zero, `extended_gcd` raises no
error; it returns gcd `0` with Bezout coefficients `x = -1`, `y = 0` (which
still satisfy `0*x + 0*y = 0`). -/
theorem extended_gcd_zero_zero_fields :
    (extended_gcd 0 0).gcd = 0 ∧ (extended_gcd 0 0).x = -1 ∧ (extended_gcd 0 0).y = 0 := by
  rw [egcd_zero_zero_eval]
  exact ⟨rfl, rfl, rfl⟩

/-! ### Dirichlet convolution algebra (`functions.py`, lines 57-85) -/

/-- Dirichlet convolution of two arithmetic functions (`functions.py`,
`convolution`): `func(n) = sum(f(d)*g(n//d) for d in divisors(n))`. -/
def convolution (f g : ℕ → ℚ) (n : ℕ) : ℚ :=
  ∑ d ∈ n.divisors, f d * g (n / d)

/-- The constant-one arithmetic function (`lambda x: 1`). -/
def oneFun : ℕ → ℚ := fun _ => 1

/-- The Mobius function supplied by the collaborator `sympy.ntheory.mobius`,
with its integer values cast into the value field. -/
def mobius (n : ℕ) : ℚ :=
  ((ArithmeticFunction.moebius n : ℤ) : ℚ)

/-- Euler's totient supplied by the collaborator `sympy.ntheory.totient`,
cast into the value field. -/
def totientQ (n : ℕ) : ℚ :=
  (Nat.totient n : ℚ)

/-- `divisor_sum` of `functions.py`: `convolution` with `g` fixed to the
constant-one function. -/
def divisor_sum (f : ℕ → ℚ) : ℕ → ℚ :=
  convolution f oneFun

/-- `mobius_inverse` of `functions.py`: `convolution` with `g` fixed to the
Mobius function. -/
def mobius_inverse (f : ℕ → ℚ) : ℕ → ℚ :=
  convolution f mobius

/-- `gcd_composition` of `functions.py`: `convolution` with `g` fixed to the
totient. -/
def gcd_composition (f : ℕ → ℚ) : ℕ → ℚ :=
  convolution f totientQ

/-- The recursive memoized function `g` built inside `dirichlet_inverse`
(`functions.py`, lines 80-84): `divs` is the list of divisors of `n` with the
last (that is, `n` itself) dropped; `x` is `1` when `divs` is empty and
`-sum(f(n//d)*g(d) for d in divs)` otherwise, and `g(n) = x / f(1)`.
Memoization affects only running time, never values. -/
def dirichletInverseFun (f : ℕ → ℚ) (n : ℕ) : ℚ :=
  if n.properDivisors = ∅ then 1 / f 1
  else (-∑ d ∈ n.properDivisors.attach, f (n / d.1) * dirichletInverseFun f d.1) / f 1
termination_by n
decreasing_by exact (Nat.mem_properDivisors.mp d.2).2

/-- `dirichlet_inverse` of `functions.py` (lines 77-85): fails when
`f(1) == 0` (`if not f(1): raise ValueError(...)`), otherwise returns the
recursive inverse without raising. -/
def dirichlet_inverse (f : ℕ → ℚ) : Except String (ℕ → ℚ) :=
  if f 1 = 0 then Except.error "function not invertible, as f(1) == 0"
  else Except.ok (dirichletInverseFun f)

theorem dirichletInverseFun_one (f : ℕ → ℚ) : dirichletInverseFun f 1 = 1 / f 1 := by
  rw [dirichletInverseFun]
  simp [Nat.properDivisors_one]

theorem dirichletInverseFun_of_two_le (f : ℕ → ℚ) {n : ℕ} (hn : 2 ≤ n) :
    dirichletInverseFun f n
      = (-∑ d ∈ n.properDivisors, f (n / d) * dirichletInverseFun f d) / f 1 := by
  rw [dirichletInverseFun]
  rw [if_neg (by rw [Nat.properDivisors_eq_empty]; omega)]
  rw [Finset.sum_attach n.properDivisors fun d => f (n / d) * dirichletInverseFun f d]

theorem convolution_at_one (f g : ℕ → ℚ) : convolution f g 1 = f 1 * g 1 := by
  unfold convolution
  rw [Nat.divisors_one]
  simp

/-- Reindexing a Dirichlet convolution by `d ↦ n / d`. -/
theorem convolution_swap (f g : ℕ → ℚ) (n : ℕ) (hn : 1 ≤ n) :
    convolution f g n = ∑ d ∈ n.divisors, f (n / d) * g d := by
  unfold convolution
  calc ∑ d ∈ n.divisors, f d * g (n / d)
      = ∑ d ∈ n.divisors, f (n / (n / d)) * g (n / d) := by
        refine Finset.sum_congr rfl fun d hd => ?_
        rw [Nat.div_div_self (Nat.mem_divisors.mp hd).1 (by omega)]
    _ = ∑ d ∈ n.divisors, f (n / d) * g d :=
        Nat.sum_div_divisors n fun d => f (n / d) * g d

/-- C10: Dirichlet convolution as implemented is commutative in its two
function arguments: `convolution f g n = convolution g f n` for every `n ≥ 1`. -/
theorem convolution_comm (f g : ℕ → ℚ) (n : ℕ) (hn : 1 ≤ n) :
    convolution f g n = convolution g f n := by
  rw [convolution_swap f g n hn]
  unfold convolution
  refine Finset.sum_congr rfl fun d hd => ?_
  ring

/-- Witness for C10 at concrete functions and `n = 6`. -/
theorem convolution_comm_witness :
    convolution (fun m => (m : ℚ)) oneFun 6 = convolution oneFun (fun m => (m : ℚ)) 6 :=
  convolution_comm (fun m => (m : ℚ)) oneFun 6 (by norm_num)

/-- C8: `dirichlet_inverse f` fails exactly when `f 1 = 0`, and otherwise
returns the inverse function without any error (no partial result is ever
produced on failure). -/
theorem dirichlet_inverse_error_iff (f : ℕ → ℚ) :
    ((∃ e, dirichlet_inverse f = Except.error e) ↔ f 1 = 0)
      ∧ (f 1 ≠ 0 → dirichlet_inverse f = Except.ok (dirichletInverseFun f)) := by
  unfold dirichlet_inverse
  by_cases h : f 1 = 0 <;> simp [h]

/-- Witness for C8: the constant-one function is invertible, the
constant-zero function is not. -/
theorem dirichlet_inverse_error_iff_witness :
    dirichlet_inverse (fun _ => (1 : ℚ))
        = Except.ok (dirichletInverseFun fun _ => (1 : ℚ))
      ∧ ((∃ e, dirichlet_inverse (fun _ => (0 : ℚ)) = Except.error e) ↔ (0 : ℚ) = 0) :=
  ⟨(dirichlet_inverse_error_iff (fun _ => (1 : ℚ))).2 (by norm_num),
    (dirichlet_inverse_error_iff (fun _ => (0 : ℚ))).1⟩

/-- The defining property of the recursive inverse: convolving `f` with it
yields the multiplicative identity of Dirichlet convolution. -/
theorem convolution_dirichletInverseFun (f : ℕ → ℚ) (hf : f 1 ≠ 0) (n : ℕ) (hn : 1 ≤ n) :
    convolution f (dirichletInverseFun f) n = if n = 1 then 1 else 0 := by
  rcases eq_or_lt_of_le hn with h1 | h2
  · rw [← h1]
    rw [if_pos rfl, convolution_at_one, dirichletInverseFun_one, mul_one_div, div_self hf]
  · have hn1 : n ≠ 1 := by omega
    have hn0 : n ≠ 0 := by omega
    rw [if_neg hn1, convolution_swap f _ n hn]
    rw [← Nat.cons_self_properDivisors hn0, Finset.sum_cons]
    rw [Nat.div_self (by omega : 0 < n)]
    rw [dirichletInverseFun_of_two_le f (by omega)]
    set S := ∑ d ∈ n.properDivisors, f (n / d) * dirichletInverseFun f d with hS
    have : f 1 * (-S / f 1) = -S := by
      field_simp
      ring
    rw [this]
    ring

/-- The Dirichlet inverse of any function agreeing with the identity
`e(1) = 1, e(m) = 0 (m ≥ 2)` is again that identity. -/
theorem dirichletInverseFun_eps (h : ℕ → ℚ) (h1 : h 1 = 1)
    (h0 : ∀ m, 2 ≤ m → h m = 0) (n : ℕ) (hn : 1 ≤ n) :
    dirichletInverseFun h n = if n = 1 then 1 else 0 := by
  rcases eq_or_lt_of_le hn with heq | hlt
  · rw [← heq, if_pos rfl, dirichletInverseFun_one, h1]
    norm_num
  · have hn1 : n ≠ 1 := by omega
    rw [if_neg hn1, dirichletInverseFun_of_two_le h (by omega)]
    have hz : ∀ d ∈ n.properDivisors, h (n / d) * dirichletInverseFun h d = 0 := by
      intro d hd
      obtain ⟨hdvd, hdlt⟩ := Nat.mem_properDivisors.mp hd
      have hdpos : 0 < d := Nat.pos_of_mem_properDivisors hd
      have hq1 : n / d ≠ 1 := by
        intro hq
        have hmul := Nat.div_mul_cancel hdvd
        rw [hq, one_mul] at hmul
        omega
      have hqpos : 0 < n / d := Nat.div_pos (Nat.le_of_dvd (by omega) hdvd) hdpos
      rw [h0 (n / d) (by omega), zero_mul]
    rw [Finset.sum_eq_zero hz]
    norm_num

/-- C4: for every arithmetic function `f` (with `f 1 ≠ 0`, so that the
inverses are defined rather than raising) and every `n ≥ 1`, the round trip
`dirichlet_inverse(convolution(f, dirichlet_inverse(f)))` evaluates at `n` to
`1` when `n = 1` and `0` otherwise. -/
theorem dirichlet_inverse_round_trip (f : ℕ → ℚ) (hf : f 1 ≠ 0) (n : ℕ) (hn : 1 ≤ n) :
    ∃ g G, dirichlet_inverse f = Except.ok g
      ∧ dirichlet_inverse (convolution f g) = Except.ok G
      ∧ G n = if n = 1 then 1 else 0 := by
  have hone : convolution f (dirichletInverseFun f) 1 = 1 := by
    rw [convolution_dirichletInverseFun f hf 1 le_rfl]
    simp
  refine ⟨dirichletInverseFun f, dirichletInverseFun (convolution f (dirichletInverseFun f)),
    ?_, ?_, ?_⟩
  · unfold dirichlet_inverse
    rw [if_neg hf]
  · unfold dirichlet_inverse
    rw [if_neg (by rw [hone]; norm_num)]
  · refine dirichletInverseFun_eps _ hone ?_ n hn
    intro m hm
    rw [convolution_dirichletInverseFun f hf m (by omega), if_neg (by omega)]

/-- Witness for C4 at the constant-one function and `n = 2`. -/
theorem dirichlet_inverse_round_trip_witness :
    ∃ g G, dirichlet_inverse (fun _ => (1 : ℚ)) = Except.ok g
      ∧ dirichlet_inverse (convolution (fun _ => (1 : ℚ)) g) = Except.ok G
      ∧ G 2 = if 2 = 1 then 1 else 0 :=
  dirichlet_inverse_round_trip (fun _ => (1 : ℚ)) (by norm_num) 2 (by norm_num)

/-- C5: Mobius inversion as implemented: `mobius_inverse (divisor_sum f)`
recovers `f` at every `n ≥ 1`. -/
theorem mobius_inverse_divisor_sum (f : ℕ → ℚ) (n : ℕ) (hn : 1 ≤ n) :
    mobius_inverse (divisor_sum f) n = f n := by
  have hsum : ∀ m : ℕ, 0 < m → ∑ i ∈ m.divisors, f i = divisor_sum f m := by
    intro m _
    unfold divisor_sum convolution oneFun
    simp
  have key := (ArithmeticFunction.sum_eq_iff_sum_smul_moebius_eq (R := ℚ)).mp hsum n (by omega)
  have key2 : ∑ x ∈ n.divisorsAntidiagonal,
        (ArithmeticFunction.moebius x.1 : ℤ) • divisor_sum f x.2
      = ∑ d ∈ n.divisors, (ArithmeticFunction.moebius (n / d) : ℤ) • divisor_sum f d :=
    Nat.sum_divisorsAntidiagonal' fun a b => (ArithmeticFunction.moebius a : ℤ) • divisor_sum f b
  rw [key2] at key
  rw [← key]
  unfold mobius_inverse convolution mobius
  refine Finset.sum_congr rfl fun d hd => ?_
  rw [zsmul_eq_mul]
  ring

/-- Witness for C5 at the identity function and `n = 4`. -/
theorem mobius_inverse_divisor_sum_witness :
    mobius_inverse (divisor_sum fun m => (m : ℚ)) 4 = ((4 : ℕ) : ℚ) :=
  mobius_inverse_divisor_sum (fun m => (m : ℚ)) 4 (by norm_num)

/-- Counting the fiber of `k ↦ gcd n k` over a divisor `d` of `n` inside
`[1, n]`: it has exactly `totient (n / d)` elements (witnessed by the
bijection `k ↦ k / d`). -/
theorem card_gcd_fiber {n d : ℕ} (hn : 1 ≤ n) (hd : d ∣ n) :
    ((Finset.Icc 1 n).filter fun k => Nat.gcd n k = d).card = Nat.totient (n / d) := by
  have hd0 : 0 < d := by
    rcases Nat.eq_zero_or_pos d with h | h
    · subst h
      obtain ⟨c, hc⟩ := hd
      omega
    · exact h
  have hnd0 : 0 < n / d := Nat.div_pos (Nat.le_of_dvd (by omega) hd) hd0
  rw [← Nat.filter_coprime_Ico_eq_totient (n / d) 1]
  have hIco : Finset.Ico 1 (1 + n / d) = Finset.Icc 1 (n / d) := by
    rw [add_comm, Nat.Ico_succ_right]
  rw [hIco]
  refine Finset.card_bij (fun k _ => k / d) ?_ ?_ ?_
  · intro k hk
    rw [Finset.mem_filter, Finset.mem_Icc] at hk
    obtain ⟨⟨hk1, hkn⟩, hgcd⟩ := hk
    have hdk : d ∣ k := hgcd ▸ Nat.gcd_dvd_right n k
    rw [Finset.mem_filter, Finset.mem_Icc]
    refine ⟨⟨Nat.one_le_div_iff hd0 |>.mpr (Nat.le_of_dvd (by omega) hdk), ?_⟩, ?_⟩
    · exact Nat.div_le_div_right hkn
    · have := Nat.coprime_div_gcd_div_gcd (m := n) (n := k) (by rw [hgcd]; omega)
      rwa [hgcd] at this
  · intro k1 hk1 k2 hk2 hdiv
    rw [Finset.mem_filter] at hk1 hk2
    have h1 : d ∣ k1 := hk1.2 ▸ Nat.gcd_dvd_right n k1
    have h2 : d ∣ k2 := hk2.2 ▸ Nat.gcd_dvd_right n k2
    obtain ⟨c1, hc1⟩ := h1
    obtain ⟨c2, hc2⟩ := h2
    subst hc1
    subst hc2
    dsimp only at hdiv
    rw [Nat.mul_div_cancel_left c1 hd0, Nat.mul_div_cancel_left c2 hd0] at hdiv
    rw [hdiv]
  · intro m hm
    rw [Finset.mem_filter, Finset.mem_Icc] at hm
    obtain ⟨⟨hm1, hmn⟩, hcop⟩ := hm
    refine ⟨d * m, ?_, ?_⟩
    · rw [Finset.mem_filter, Finset.mem_Icc]
      refine ⟨⟨Nat.mul_pos hd0 (by omega), ?_⟩, ?_⟩
      · calc d * m ≤ d * (n / d) := Nat.mul_le_mul_left d hmn
          _ = n := Nat.mul_div_cancel' hd
      · conv_lhs => rw [← Nat.mul_div_cancel' hd]
        rw [Nat.gcd_mul_left]
        rw [Nat.Coprime] at hcop
        rw [hcop, mul_one]
    · exact Nat.mul_div_cancel_left m hd0

/-- C6: `gcd_composition f = convolution f totient` satisfies
`(gcd_composition f) n = sum(f(gcd(n, k)) for k in range(1, n+1))`
for every `n ≥ 1`. -/
theorem gcd_composition_spec (f : ℕ → ℚ) (n : ℕ) (hn : 1 ≤ n) :
    gcd_composition f n = ∑ k ∈ Finset.Icc 1 n, f (Nat.gcd n k) := by
  have hmaps : ∀ k ∈ Finset.Icc 1 n, Nat.gcd n k ∈ n.divisors := by
    intro k hk
    rw [Nat.mem_divisors]
    exact ⟨Nat.gcd_dvd_left n k, by omega⟩
  rw [← Finset.sum_fiberwise_of_maps_to' hmaps f]
  unfold gcd_composition convolution totientQ
  refine Finset.sum_congr rfl fun d hd => ?_
  rw [Finset.sum_const, card_gcd_fiber hn (Nat.mem_divisors.mp hd).1]
  rw [nsmul_eq_mul, mul_comm]

/-- Witness for C6 at the identity function and `n = 4`. -/
theorem gcd_composition_spec_witness :
    gcd_composition (fun m => (m : ℚ)) 4 = ∑ k ∈ Finset.Icc 1 4, ((Nat.gcd 4 k : ℕ) : ℚ) :=
  gcd_composition_spec (fun m => (m : ℚ)) 4 (by norm_num)

/-! ### Stern-Brocot ceiling search (`sequences.py`, lines 96-115) -/

/-- Cross-multiplication comparison of fraction pairs (`sequences.py`,
`_fract_comp`): `r[0]*s[1] - r[1]*s[0]`, negative exactly when `r < s` for
positive denominators. -/
def fract_comp (r s : ℤ × ℤ) : ℤ :=
  r.1 * s.2 - r.2 * s.1

/-- Recursive binary search in the Stern-Brocot tree (`sequences.py`,
`_impl_fract_ceil`).  The Python recursion carries no structural bound (and
genuinely diverges on degenerate bounds with non-positive denominators), so
the embedding threads an explicit recursion-depth budget `fuel`; `none` means
the budget ran out.  Claim C9 shows a budget of `n` always suffices when both
bounding denominators are positive. -/
def imp_fract_ceil : ℕ → ℤ × ℤ → ℤ × ℤ → ℤ × ℤ → ℤ → Option (ℤ × ℤ)
  | 0, _, _, _, _ => none
  | fuel + 1, first, last, fract, n =>
    if fract = first ∨ fract = last then some fract
    else if first.2 + last.2 > n then some last
    else if fract_comp fract (first.1 + last.1, first.2 + last.2) < 0 then
      imp_fract_ceil fuel first (first.1 + last.1, first.2 + last.2) fract n
    else
      imp_fract_ceil fuel (first.1 + last.1, first.2 + last.2) last fract n

/-- `_fract_ceil` (`sequences.py`, lines 112-115): the search started at the
tree bounds `0/1` and `1/1`, with the depth budget established by C9. -/
def fract_ceil (fract : ℤ × ℤ) (n : ℤ) : Option (ℤ × ℤ) :=
  imp_fract_ceil n.toNat (0, 1) (1, 1) fract n

/-- Fuel bound for the Stern-Brocot search: one unit of fuel plus enough to
cover the gap between the current denominator sum and `n + 2` always
suffices, because each recursive step increases the denominator sum. -/
theorem imp_fract_ceil_isSome : ∀ (fuel : ℕ) (first last fract : ℤ × ℤ) (n : ℤ),
    1 ≤ fuel → n + 2 ≤ first.2 + last.2 + (fuel : ℤ) → 1 ≤ first.2 → 1 ≤ last.2 →
    (imp_fract_ceil fuel first last fract n).isSome := by
  intro fuel
  induction fuel with
  | zero => omega
  | succ fuel ih =>
    intro first last fract n hfuel hsum h1 h2
    rw [imp_fract_ceil]
    by_cases hbase : fract = first ∨ fract = last
    · rw [if_pos hbase]
      rfl
    · rw [if_neg hbase]
      by_cases hmed : first.2 + last.2 > n
      · rw [if_pos hmed]
        rfl
      · rw [if_neg hmed]
        push_neg at hmed
        push_cast at hsum
        by_cases hcmp : fract_comp fract (first.1 + last.1, first.2 + last.2) < 0
        · rw [if_pos hcmp]
          refine ih first (first.1 + last.1, first.2 + last.2) fract n ?_ ?_ h1 ?_
          · omega
          · push_cast
            omega
          · show 1 ≤ first.2 + last.2
            omega
        · rw [if_neg hcmp]
          refine ih (first.1 + last.1, first.2 + last.2) last fract n ?_ ?_ ?_ h2
          · omega
          · push_cast
            omega
          · show 1 ≤ first.2 + last.2
            omega

/-- C9: the Stern-Brocot ceiling search terminates on every input with
`n ≥ 1` and bounding fractions with positive denominators; a recursion-depth
budget of `n` suffices (each call replaces one bound by the mediant, whose
denominator exceeds both bounds' denominators yet must stay `≤ n` for the
search to continue). -/
theorem fract_ceil_terminates (first last fract : ℤ × ℤ) (n : ℤ) (hn : 1 ≤ n)
    (h1 : 1 ≤ first.2) (h2 : 1 ≤ last.2) :
    (imp_fract_ceil n.toNat first last fract n).isSome :=
  imp_fract_ceil_isSome n.toNat first last fract n (by omega) (by omega) h1 h2

/-- Witness for C9 at `n = 3`, bounds `0/1`, `1/1`, target `2/5`. -/
theorem fract_ceil_terminates_witness :
    (imp_fract_ceil (3 : ℤ).toNat ((0, 1) : ℤ × ℤ) ((1, 1) : ℤ × ℤ) ((2, 5) : ℤ × ℤ) 3).isSome :=
  fract_ceil_terminates (0, 1) (1, 1) (2, 5) 3 (by norm_num) (by norm_num) (by norm_num)

/-- A determinant-one neighbor pair has a reduced left member. -/
theorem det_coprime_left {f1 f2 l1 l2 : ℤ} (h : l1 * f2 - f1 * l2 = 1) :
    Int.gcd f1 f2 = 1 := by
  rw [Int.gcd_eq_one_iff_coprime]
  exact ⟨-l2, l1, by linear_combination h⟩

/-- A determinant-one neighbor pair has a reduced right member. -/
theorem det_coprime_right {f1 f2 l1 l2 : ℤ} (h : l1 * f2 - f1 * l2 = 1) :
    Int.gcd l1 l2 = 1 := by
  rw [Int.gcd_eq_one_iff_coprime]
  exact ⟨f2, -f1, by linear_combination h⟩

/-- Two reduced fractions with positive denominators and equal values are
equal as pairs. -/
theorem reduced_value_eq {p q a b : ℤ} (hq : 0 < q) (hb : 0 < b)
    (hp : Int.gcd p q = 1) (ha : Int.gcd a b = 1) (hval : a * q = b * p) :
    a = p ∧ b = q := by
  have hcab : IsCoprime a b := Int.gcd_eq_one_iff_coprime.mp ha
  have hcpq : IsCoprime p q := Int.gcd_eq_one_iff_coprime.mp hp
  have hbq : b ∣ q := by
    have hdvd : b ∣ a * q := ⟨p, hval⟩
    exact (hcab.symm).dvd_of_dvd_mul_left hdvd
  have hqb : q ∣ b := by
    have hdvd : q ∣ b * p := ⟨a, by linarith [hval]⟩
    exact (hcpq.symm).dvd_of_dvd_mul_right hdvd
  have hbeq : b = q := Int.dvd_antisymm (by omega) (by omega) hbq hqb
  subst hbeq
  refine ⟨?_, rfl⟩
  exact mul_right_cancel₀ (by omega : b ≠ 0) (hval.trans (mul_comm b p))

/-- Any fraction with positive denominator lying strictly between a
determinant-one neighbor pair has denominator at least the sum of the pair's
denominators (the classical mediant property). -/
theorem between_denom {f1 f2 l1 l2 u v : ℤ} (hf2 : 0 < f2) (hl2 : 0 < l2)
    (hdet : l1 * f2 - f1 * l2 = 1) (h1 : f1 * v < f2 * u) (h2 : l2 * u < l1 * v) :
    f2 + l2 ≤ v := by
  have e1 : 1 ≤ f2 * u - f1 * v := by omega
  have e2 : 1 ≤ l1 * v - l2 * u := by omega
  have key : v * (l1 * f2 - f1 * l2) = f2 * (l1 * v - l2 * u) + l2 * (f2 * u - f1 * v) := by
    ring
  rw [hdet, mul_one] at key
  have t1 : f2 * 1 ≤ f2 * (l1 * v - l2 * u) := mul_le_mul_of_nonneg_left e2 (by omega)
  have t2 : l2 * 1 ≤ l2 * (f2 * u - f1 * v) := mul_le_mul_of_nonneg_left e1 (by omega)
  linarith [key, t1, t2]

/-- Transitivity of cross-multiplied comparisons: from `a/b < p/q` and
`p/q ≤ u/v` conclude `a/b < u/v` (positive `q`, `v`, non-negative `b`). -/
theorem cross_lt_of_lt_of_le {a b p q u v : ℤ} (hq : 0 < q) (hv : 0 < v) (hb : 0 ≤ b)
    (h1 : a * q < b * p) (h2 : p * v ≤ q * u) : a * v < b * u := by
  have t1 : (a * q) * v < (b * p) * v := mul_lt_mul_of_pos_right h1 hv
  have t2 : b * (p * v) ≤ b * (q * u) := mul_le_mul_of_nonneg_left h2 hb
  have t3 : q * (a * v) < q * (b * u) := by nlinarith [t1, t2]
  exact lt_of_mul_lt_mul_left t3 (by omega)

/-- Main invariant argument for the Stern-Brocot search: if the bracket
`(first, last)` is a determinant-one pair of fractions with denominators in
`[1, n]` enclosing the reduced target `p/q`, then any returned fraction is
the least fraction of denominator at most `n` that is `≥ p/q`. -/
theorem imp_fract_ceil_spec (p q n : ℤ) (hq : 1 ≤ q) (hred : Int.gcd p q = 1) :
    ∀ (fuel : ℕ) (f1 f2 l1 l2 : ℤ),
    1 ≤ f2 → f2 ≤ n → 1 ≤ l2 → l2 ≤ n →
    l1 * f2 - f1 * l2 = 1 →
    f1 * q ≤ f2 * p →
    p * l2 ≤ q * l1 →
    ∀ g : ℤ × ℤ, imp_fract_ceil fuel (f1, f2) (l1, l2) (p, q) n = some g →
    1 ≤ g.2 ∧ g.2 ≤ n ∧ p * g.2 ≤ q * g.1
      ∧ ∀ u v : ℤ, 1 ≤ v → v ≤ n → p * v ≤ q * u → g.1 * v ≤ g.2 * u := by
  intro fuel
  induction fuel with
  | zero =>
    intro f1 f2 l1 l2 _ _ _ _ _ _ _ g hg
    simp [imp_fract_ceil] at hg
  | succ fuel ih =>
    intro f1 f2 l1 l2 hf1 hf2 hl1 hl2 hdet hfirst hlast g hg
    rw [imp_fract_ceil] at hg
    dsimp only at hg
    by_cases hbase : ((p, q) : ℤ × ℤ) = (f1, f2) ∨ ((p, q) : ℤ × ℤ) = (l1, l2)
    · rw [if_pos hbase] at hg
      have hgeq : g = (p, q) := (Option.some.injEq _ _).mp hg.symm
      subst hgeq
      have hqn : q ≤ n := by
        rcases hbase with hb | hb <;>
          · rw [Prod.mk.injEq] at hb
            omega
      exact ⟨by omega, hqn, le_of_eq (mul_comm p q), fun u v _ _ h => h⟩
    · rw [if_neg hbase] at hg
      -- the target differs from both bounds, hence lies strictly above `first`
      have hfirst_ne : f1 * q ≠ f2 * p := by
        intro heq
        obtain ⟨h1, h2⟩ := reduced_value_eq (by omega) (by omega) hred
          (det_coprime_left hdet) heq
        exact hbase (Or.inl (by rw [Prod.mk.injEq]; omega))
      have hfirst_lt : f1 * q < f2 * p := lt_of_le_of_ne hfirst hfirst_ne
      by_cases hbig : f2 + l2 > n
      · rw [if_pos hbig] at hg
        have hgeq : g = (l1, l2) := (Option.some.injEq _ _).mp hg.symm
        subst hgeq
        refine ⟨by omega, by omega, hlast, ?_⟩
        intro u v hv1 hvn huv
        by_contra hcon
        push_neg at hcon
        -- then first < u/v < last, forcing v ≥ f2 + l2 > n
        have hx1 : f1 * v < f2 * u :=
          cross_lt_of_lt_of_le (by omega) (by omega) (by omega) hfirst_lt huv
        have hx2 : l2 * u < l1 * v := hcon
        have := between_denom (by omega) (by omega) hdet hx1 hx2
        omega
      · rw [if_neg hbig] at hg
        by_cases hcmp : fract_comp (p, q) (f1 + l1, f2 + l2) < 0
        · rw [if_pos hcmp] at hg
          unfold fract_comp at hcmp
          dsimp only at hcmp
          refine ih f1 f2 (f1 + l1) (f2 + l2) hf1 hf2 (by omega) (by omega)
            (by linear_combination hdet) hfirst (by linarith) g hg
        · rw [if_neg hcmp] at hg
          unfold fract_comp at hcmp
          dsimp only at hcmp
          push_neg at hcmp
          refine ih (f1 + l1) (f2 + l2) l1 l2 (by omega) (by omega) hl1 hl2
            (by linear_combination hdet) (by linarith) hlast g hg

/-- C3: for every reduced fraction `p/q` with `0 ≤ p/q ≤ 1` and every
`n ≥ 1`, the Stern-Brocot search started at `0/1` and `1/1` returns the least
fraction `g` with `g ≥ p/q` and denominator at most `n` — the ceiling of
`p/q` within the `n`-th Farey sequence. -/
theorem fract_ceil_spec (p q n : ℤ) (hn : 1 ≤ n) (hq : 1 ≤ q) (hp : 0 ≤ p) (hpq : p ≤ q)
    (hred : Int.gcd p q = 1) (g : ℤ × ℤ) (hg : fract_ceil (p, q) n = some g) :
    1 ≤ g.2 ∧ g.2 ≤ n ∧ p * g.2 ≤ q * g.1
      ∧ ∀ u v : ℤ, 1 ≤ v → v ≤ n → p * v ≤ q * u → g.1 * v ≤ g.2 * u := by
  unfold fract_ceil at hg
  exact imp_fract_ceil_spec p q n hq hred n.toNat 0 1 1 1
    le_rfl hn le_rfl hn (by ring) (by omega) (by omega) g hg

/-- Witness for C3: the ceiling of `2/5` in the third Farey sequence is
`1/2`. -/
theorem fract_ceil_spec_witness :
    1 ≤ (((1, 2) : ℤ × ℤ)).2 ∧ (((1, 2) : ℤ × ℤ)).2 ≤ 3
      ∧ 2 * (((1, 2) : ℤ × ℤ)).2 ≤ 5 * (((1, 2) : ℤ × ℤ)).1
      ∧ ∀ u v : ℤ, 1 ≤ v → v ≤ 3 → 2 * v ≤ 5 * u
          → (((1, 2) : ℤ × ℤ)).1 * v ≤ (((1, 2) : ℤ × ℤ)).2 * u :=
  fract_ceil_spec 2 5 3 (by norm_num) (by norm_num) (by norm_num) (by norm_num)
    (by decide) (1, 2) (by decide)

/-! ### Farey sequence generator (`sequences.py`, lines 118-139) -/

/-- Strict value order on fraction pairs with positive denominators:
`x < y` iff `x.1 * y.2 < x.2 * y.1` (cross-multiplication). -/
def fractLt (x y : ℤ × ℤ) : Prop :=
  x.1 * y.2 < x.2 * y.1

/-- Loop of `farey` (`sequences.py`, lines 134-139): while the current term
`a/b` is below `last`, emit it and advance by the three-term recurrence
`r = (n + b) // d; (a, b, c, d) = c, d, r*c - a, r*d - b`; after the loop,
emit `last` exactly when the final term equals it.  The embedding threads a
step budget `fuel` (`none` = budget ran out); the budget chosen by `farey` is
shown never to run out. -/
def fareyLoop : ℤ → ℤ × ℤ → ℕ → ℤ → ℤ → ℤ → ℤ → Option (List (ℤ × ℤ))
  | _, _, 0, _, _, _, _ => none
  | n, last, fuel + 1, a, b, c, d =>
    if fract_comp (a, b) last < 0 then
      match fareyLoop n last fuel c d ((n + b).fdiv d * c - a) ((n + b).fdiv d * d - b) with
      | none => none
      | some l => some ((a, b) :: l)
    else if (a, b) = last then some [last] else some []

/-- `farey` (`sequences.py`, lines 118-139): reduce both bounds by exact
rational arithmetic (`Fraction(*first)`, `Fraction(*last)`), take the reduced
lower bound as first term when its denominator is at most `n` and otherwise
its Stern-Brocot ceiling, derive the second term from the Bezout identity
(`x, y = extended_gcd(b, -a)[1:]; r = (n - y) // b; c, d = r*a + x, r*b + y`),
then run the three-term recurrence.  The step budget `(n.toNat+1)^2 + 1`
strictly exceeds the length of the Farey sequence of order `n`. -/
def farey (n : ℤ) (first last : ℤ × ℤ) : Option (List (ℤ × ℤ)) :=
  let r : ℚ := (first.1 : ℚ) / (first.2 : ℚ)
  let s : ℚ := (last.1 : ℚ) / (last.2 : ℚ)
  let rfirst : ℤ × ℤ := (r.num, (r.den : ℤ))
  let rlast : ℤ × ℤ := (s.num, (s.den : ℤ))
  let ab : Option (ℤ × ℤ) := if rfirst.2 ≤ n then some rfirst else fract_ceil rfirst n
  match ab with
  | none => none
  | some (a, b) =>
    let e := extended_gcd b (-a)
    let r2 := (n - e.y).fdiv b
    fareyLoop n rlast ((n.toNat + 1) * (n.toNat + 1) + 1) a b (r2 * a + e.x) (r2 * b + e.y)

/-- The members of the Farey sequence of order `n` on `[0, 1]`, as reduced
pairs `(p, q)` with `0 ≤ p ≤ q`, `1 ≤ q ≤ n`, `gcd p q = 1`. -/
def fareyFinset (n : ℤ) : Finset (ℤ × ℤ) :=
  ((Finset.Icc 0 n) ×ˢ (Finset.Icc 1 n)).filter fun x => x.1 ≤ x.2 ∧ Int.gcd x.1 x.2 = 1

theorem mem_fareyFinset {n : ℤ} {x : ℤ × ℤ} :
    x ∈ fareyFinset n
      ↔ 0 ≤ x.1 ∧ 1 ≤ x.2 ∧ x.2 ≤ n ∧ x.1 ≤ x.2 ∧ Int.gcd x.1 x.2 = 1 := by
  unfold fareyFinset
  rw [Finset.mem_filter, Finset.mem_product, Finset.mem_Icc, Finset.mem_Icc]
  constructor
  · rintro ⟨⟨⟨h1, h2⟩, h3, h4⟩, h5, h6⟩
    exact ⟨h1, h3, h4, h5, h6⟩
  · rintro ⟨h1, h2, h3, h4, h5⟩
    exact ⟨⟨⟨h1, by omega⟩, h2, h3⟩, h4, h5⟩

/-- The strictly positive members of the Farey sequence of order `m`, indexed
by denominator. -/
def fareyPos (m : ℕ) : Finset (ℤ × ℤ) :=
  (Finset.Icc 1 m).biUnion fun q =>
    ((Finset.Icc 1 q).filter fun p => q.Coprime p).image fun p : ℕ => ((↑p : ℤ), (↑q : ℤ))

theorem mem_fareyPos {m : ℕ} {x : ℤ × ℤ} :
    x ∈ fareyPos m
      ↔ ∃ q, (1 ≤ q ∧ q ≤ m)
          ∧ ∃ p, (1 ≤ p ∧ p ≤ q) ∧ q.Coprime p ∧ ((p : ℤ), (q : ℤ)) = x := by
  unfold fareyPos
  simp only [Finset.mem_biUnion, Finset.mem_image, Finset.mem_filter, Finset.mem_Icc]
  constructor
  · rintro ⟨q, hq, p, ⟨hp, hcop⟩, hx⟩
    exact ⟨q, hq, p, hp, hcop, hx⟩
  · rintro ⟨q, hq, p, hp, hcop, hx⟩
    exact ⟨q, hq, p, ⟨hp, hcop⟩, hx⟩

theorem card_fareyPos (m : ℕ) :
    (fareyPos m).card = ∑ q ∈ Finset.Icc 1 m, Nat.totient q := by
  unfold fareyPos
  rw [Finset.card_biUnion]
  · refine Finset.sum_congr rfl fun q hq => ?_
    rw [Finset.mem_Icc] at hq
    rw [Finset.card_image_of_injective]
    · have h1 : Finset.Ico 1 (1 + q) = Finset.Icc 1 q := by
        rw [add_comm, Nat.Ico_succ_right]
      rw [← Nat.filter_coprime_Ico_eq_totient q 1, h1]
    · intro p1 p2 h
      rw [Prod.mk.injEq] at h
      exact_mod_cast h.1
  · intro q1 h1 q2 h2 hne
    rw [Finset.disjoint_left]
    intro x hx1 hx2
    rw [Finset.mem_image] at hx1 hx2
    obtain ⟨p1, _, he1⟩ := hx1
    obtain ⟨p2, _, he2⟩ := hx2
    apply hne
    have : ((q1 : ℤ)) = ((q2 : ℤ)) := by
      rw [← he2] at he1
      rw [Prod.mk.injEq] at he1
      exact he1.2
    exact_mod_cast this

theorem fareyFinset_eq (n : ℤ) (hn : 1 ≤ n) :
    fareyFinset n = insert (0, 1) (fareyPos n.toNat) := by
  ext x
  rw [mem_fareyFinset, Finset.mem_insert, mem_fareyPos]
  constructor
  · rintro ⟨h1, h2, h3, h4, h5⟩
    by_cases hp : x.1 = 0
    · left
      rw [Prod.ext_iff]
      refine ⟨hp, ?_⟩
      rw [hp] at h5
      rw [Int.gcd_zero_left] at h5
      omega
    · right
      have e1 : x.1.natAbs = x.1.toNat := by omega
      have e2 : x.2.natAbs = x.2.toNat := by omega
      refine ⟨x.2.toNat, ⟨by omega, by omega⟩, x.1.toNat, ⟨by omega, by omega⟩, ?_, ?_⟩
      · rw [Nat.Coprime, Nat.gcd_comm, ← e1, ← e2]
        exact h5
      · rw [Prod.ext_iff]
        constructor <;> · dsimp only; omega
  · rintro (heq | ⟨q, ⟨hq1, hq2⟩, p, ⟨hp1, hp2⟩, hcop, hx⟩)
    · subst heq
      refine ⟨le_refl 0, le_refl 1, hn, by omega, ?_⟩
      rw [Int.gcd_zero_left]
      rfl
    · subst hx
      dsimp only
      refine ⟨by omega, by exact_mod_cast hq1, by omega, by exact_mod_cast hp2, ?_⟩
      show Nat.gcd ((p : ℤ)).natAbs ((q : ℤ)).natAbs = 1
      rw [Int.natAbs_ofNat, Int.natAbs_ofNat, Nat.gcd_comm]
      exact hcop

theorem card_fareyFinset (n : ℤ) (hn : 1 ≤ n) :
    (fareyFinset n).card = 1 + ∑ q ∈ Finset.Icc 1 n.toNat, Nat.totient q := by
  rw [fareyFinset_eq n hn, Finset.card_insert_of_not_mem, card_fareyPos, add_comm]
  rw [mem_fareyPos]
  rintro ⟨q, _, p, ⟨hp1, _⟩, _, hx⟩
  rw [Prod.mk.injEq] at hx
  have : (p : ℤ) = 0 := hx.1
  omega

/-- The total length of a Farey sequence of order `n` is at most `n^2 + 1`. -/
theorem card_fareyFinset_le (n : ℤ) (hn : 1 ≤ n) :
    (fareyFinset n).card ≤ n.toNat * n.toNat + 1 := by
  rw [card_fareyFinset n hn]
  have h1 : ∑ q ∈ Finset.Icc 1 n.toNat, Nat.totient q ≤ n.toNat * n.toNat := by
    calc ∑ q ∈ Finset.Icc 1 n.toNat, Nat.totient q
        ≤ ∑ q ∈ Finset.Icc 1 n.toNat, n.toNat := by
          refine Finset.sum_le_sum fun q hq => ?_
          rw [Finset.mem_Icc] at hq
          exact le_trans (Nat.totient_le q) hq.2
      _ = (Finset.Icc 1 n.toNat).card * n.toNat := by rw [Finset.sum_const, smul_eq_mul]
      _ ≤ n.toNat * n.toNat := by
          rw [Nat.card_Icc, Nat.add_sub_cancel]
  omega

/-- Invariant correctness of the Farey loop with upper bound `1/1`: from a
state `(a, b, c, d)` where `a/b` is a Farey member of order `n` in `[0, 1]`,
`(a/b, c/d)` is a determinant-one pair with denominators in `[1, n]` whose
sum exceeds `n` (that is, a pair of adjacent order-`n` Farey fractions), and
the step budget covers the number of remaining members, the loop returns the
ascending list of exactly the Farey members that are `≥ a/b`. -/
theorem fareyLoop_spec (n : ℤ) (hn : 1 ≤ n) :
    ∀ (fuel : ℕ) (a b c d : ℤ),
    0 ≤ a → a ≤ b → 1 ≤ b → b ≤ n → 1 ≤ d → d ≤ n →
    b * c - a * d = 1 → n < b + d →
    ((fareyFinset n).filter fun x => a * x.2 ≤ b * x.1).card ≤ fuel →
    ∃ L, fareyLoop n (1, 1) fuel a b c d = some L
      ∧ (∀ x ∈ L, x ∈ fareyFinset n ∧ a * x.2 ≤ b * x.1)
      ∧ (∀ x ∈ fareyFinset n, a * x.2 ≤ b * x.1 → x ∈ L)
      ∧ L.Pairwise fractLt := by
  intro fuel
  induction fuel with
  | zero =>
    intro a b c d ha0 hab hb1 hbn hd1 hdn hdet hsum hfuel
    exfalso
    have hmem : (a, b) ∈ (fareyFinset n).filter fun x => a * x.2 ≤ b * x.1 := by
      rw [Finset.mem_filter, mem_fareyFinset]
      refine ⟨⟨ha0, hb1, hbn, hab, @det_coprime_left a b c d (by linear_combination hdet)⟩, ?_⟩
      exact le_of_eq (mul_comm a b)
    have := Finset.card_pos.mpr ⟨(a, b), hmem⟩
    omega
  | succ fuel ih =>
    intro a b c d ha0 hab hb1 hbn hd1 hdn hdet hsum hfuel
    have hgcdab : Int.gcd a b = 1 := @det_coprime_left a b c d (by linear_combination hdet)
    rw [fareyLoop]
    by_cases hlt : fract_comp (a, b) (1, 1) < 0
    · rw [if_pos hlt]
      unfold fract_comp at hlt
      dsimp only at hlt
      have hab_lt : a < b := by omega
      -- floor-division bounds for r = (n + b) // d
      have hr := Int.fdiv_eq_ediv (n + b) (show (0 : ℤ) ≤ d by omega)
      have h0 := Int.ediv_add_emod (n + b) d
      have hm1 := Int.emod_nonneg (n + b) (show d ≠ 0 by omega)
      have hm2 := Int.emod_lt_of_pos (n + b) (show (0 : ℤ) < d by omega)
      set r := (n + b).fdiv d with hrdef
      have hub : d * r ≤ n + b := by
        rw [hr]
        linarith
      have hlb : n + b < d * r + d := by
        rw [hr]
        linarith
      have hcomm : d * r = r * d := mul_comm d r
      -- the next pair keeps all invariants
      have hdetn : d * (r * c - a) - c * (r * d - b) = 1 := by linear_combination hdet
      have hc1 : 1 ≤ c := by
        by_contra hcon
        push_neg at hcon
        have hbc : b * c ≤ 0 := mul_nonpos_of_nonneg_of_nonpos (by omega) (by omega)
        have had : 0 ≤ a * d := mul_nonneg (by omega) (by omega)
        linarith [hdet]
      have hcd : c ≤ d := by
        by_contra hcon
        push_neg at hcon
        have := between_denom (show (0 : ℤ) < b by omega) (show (0 : ℤ) < d by omega)
          (show c * b - a * d = 1 by linear_combination hdet)
          (show a * 1 < b * 1 by omega) (show d * 1 < c * 1 by omega)
        omega
      have hd'1 : 1 ≤ r * d - b := by omega
      have hd'n : r * d - b ≤ n := by omega
      have hsum' : n < d + (r * d - b) := by omega
      -- the set of remaining members strictly shrinks
      have hssub : ((fareyFinset n).filter fun x => c * x.2 ≤ d * x.1)
          ⊂ (fareyFinset n).filter fun x => a * x.2 ≤ b * x.1 := by
        rw [Finset.ssubset_def]
        constructor
        · intro x hx
          rw [Finset.mem_filter] at hx ⊢
          obtain ⟨hxS, hxcd⟩ := hx
          have hx2 : 1 ≤ x.2 := (mem_fareyFinset.mp hxS).2.1
          have had_lt : a * d < b * c := by omega
          exact ⟨hxS,
            le_of_lt (cross_lt_of_lt_of_le (by omega) (by omega) (by omega) had_lt hxcd)⟩
        · intro hcon
          have h1 : (a, b) ∈ (fareyFinset n).filter fun x => a * x.2 ≤ b * x.1 := by
            rw [Finset.mem_filter, mem_fareyFinset]
            exact ⟨⟨ha0, hb1, hbn, hab, hgcdab⟩, le_of_eq (mul_comm a b)⟩
          have h2 := hcon h1
          rw [Finset.mem_filter] at h2
          have h3 : c * b ≤ d * a := h2.2
          have e1 : c * b = b * c := mul_comm c b
          have e2 : d * a = a * d := mul_comm d a
          omega
      have hfuel' : ((fareyFinset n).filter fun x => c * x.2 ≤ d * x.1).card ≤ fuel := by
        have := Finset.card_lt_card hssub
        omega
      obtain ⟨L', hL'eq, hLmem, hLcompl, hLpair⟩ := ih c d (r * c - a) (r * d - b)
        (by omega) hcd hd1 hdn hd'1 hd'n hdetn hsum' hfuel'
      rw [hL'eq]
      refine ⟨(a, b) :: L', rfl, ?_, ?_, ?_⟩
      · intro x hx
        rcases List.mem_cons.mp hx with hx | hx
        · subst hx
          refine ⟨?_, le_of_eq (mul_comm a b)⟩
          rw [mem_fareyFinset]
          exact ⟨ha0, hb1, hbn, hab, hgcdab⟩
        · obtain ⟨hxS, hxcd⟩ := hLmem x hx
          have hx2 : 1 ≤ x.2 := (mem_fareyFinset.mp hxS).2.1
          have had_lt : a * d < b * c := by omega
          exact ⟨hxS,
            le_of_lt (cross_lt_of_lt_of_le (by omega) (by omega) (by omega) had_lt hxcd)⟩
      · intro x hxS hxab
        rcases eq_or_lt_of_le hxab with heq | hstrict
        · have hx2 : 1 ≤ x.2 := (mem_fareyFinset.mp hxS).2.1
          have hxred : Int.gcd x.1 x.2 = 1 := (mem_fareyFinset.mp hxS).2.2.2.2
          obtain ⟨hx1, hx2'⟩ := reduced_value_eq (show (0 : ℤ) < b by omega)
            (show (0 : ℤ) < x.2 by omega) hgcdab hxred
            (show x.1 * b = x.2 * a by linear_combination -heq)
          apply List.mem_cons.mpr
          left
          rw [Prod.ext_iff]
          exact ⟨hx1, hx2'⟩
        · have hx2 : 1 ≤ x.2 := (mem_fareyFinset.mp hxS).2.1
          have hxn : x.2 ≤ n := (mem_fareyFinset.mp hxS).2.2.1
          have hxcd : c * x.2 ≤ d * x.1 := by
            by_contra hcon
            push_neg at hcon
            have := between_denom (show (0 : ℤ) < b by omega) (show (0 : ℤ) < d by omega)
              (show c * b - a * d = 1 by linear_combination hdet) hstrict hcon
            omega
          exact List.mem_cons.mpr (Or.inr (hLcompl x hxS hxcd))
      · rw [List.pairwise_cons]
        refine ⟨?_, hLpair⟩
        intro x hx
        obtain ⟨hxS, hxcd⟩ := hLmem x hx
        have hx2 : 1 ≤ x.2 := (mem_fareyFinset.mp hxS).2.1
        have had_lt : a * d < b * c := by omega
        exact cross_lt_of_lt_of_le (by omega) (by omega) (by omega) had_lt hxcd
    · rw [if_neg hlt]
      unfold fract_comp at hlt
      dsimp only at hlt
      push_neg at hlt
      have hab_eq : a = b := by omega
      have hgbb : Int.gcd b b = 1 := by
        rw [← hab_eq] at hgcdab ⊢
        rw [hab_eq] at hgcdab
        rw [hab_eq]
        exact hgcdab
      rw [Int.gcd_self] at hgbb
      have hb_one : b = 1 := by omega
      have ha_one : a = 1 := by omega
      have hpair_eq : ((a, b) : ℤ × ℤ) = (1, 1) := by rw [ha_one, hb_one]
      rw [if_pos hpair_eq]
      refine ⟨[(1, 1)], rfl, ?_, ?_, ?_⟩
      · intro x hx
        rw [List.mem_singleton] at hx
        subst hx
        refine ⟨?_, ?_⟩
        · rw [mem_fareyFinset]
          exact ⟨by omega, by omega, hn, by omega, rfl⟩
        · dsimp only
          omega
      · intro x hxS hxab
        rw [List.mem_singleton]
        obtain ⟨hx0, hx2, hxn, hxle, hxred⟩ := mem_fareyFinset.mp hxS
        rw [ha_one, hb_one, one_mul, one_mul] at hxab
        have hxeq : x.1 = x.2 := by omega
        rw [hxeq, Int.gcd_self] at hxred
        have hxone : x.2 = 1 := by omega
        rw [Prod.ext_iff]
        constructor <;> · dsimp only; omega
      · exact List.pairwise_singleton _ _

/-- Evaluation of the `farey` wrapper at the default bounds `(0,1)`, `(1,1)`:
both bounds are already reduced, the lower bound has denominator `1 ≤ n`, and
the Bezout step yields the second term `1/n`, so the loop starts from the
state `(0, 1, 1, n)`. -/
theorem farey_default_eq (n : ℤ) (hn : 1 ≤ n) :
    farey n (0, 1) (1, 1)
      = fareyLoop n (1, 1) ((n.toNat + 1) * (n.toNat + 1) + 1) 0 1 1 n := by
  have hegcd : extended_gcd 1 (-0) = ⟨1, 1, 0⟩ := by
    rw [neg_zero, extended_gcd, egcdLoop_zero]
    norm_num
  dsimp only [farey]
  norm_num
  rw [if_pos hn]
  show fareyLoop n 1 ((n.toNat + 1) * (n.toNat + 1) + 1) 0 1
      ((n - (extended_gcd 1 (-0)).y).fdiv 1 * 0 + (extended_gcd 1 (-0)).x)
      ((n - (extended_gcd 1 (-0)).y).fdiv 1 * 1 + (extended_gcd 1 (-0)).y)
    = fareyLoop n 1 ((n.toNat + 1) * (n.toNat + 1) + 1) 0 1 1 n
  rw [hegcd]
  norm_num

/-- C2: for every `n ≥ 1` the sequence produced by `farey n` with the default
bounds `(0,1)` and `(1,1)` has exactly `φ(1) + ... + φ(n) + 1` terms, is
strictly increasing, and every emitted pair `(p, q)` satisfies `1 ≤ q ≤ n`
and `gcd p q = 1`. -/
theorem farey_correct (n : ℤ) (hn : 1 ≤ n) :
    ∃ L, farey n (0, 1) (1, 1) = some L
      ∧ L.length = 1 + ∑ q ∈ Finset.Icc 1 n.toNat, Nat.totient q
      ∧ L.Pairwise fractLt
      ∧ ∀ x ∈ L, 1 ≤ x.2 ∧ x.2 ≤ n ∧ Int.gcd x.1 x.2 = 1 := by
  have hfuel : ((fareyFinset n).filter fun x => 0 * x.2 ≤ 1 * x.1).card
      ≤ (n.toNat + 1) * (n.toNat + 1) + 1 := by
    calc ((fareyFinset n).filter fun x => 0 * x.2 ≤ 1 * x.1).card
        ≤ (fareyFinset n).card := Finset.card_filter_le _ _
      _ ≤ n.toNat * n.toNat + 1 := card_fareyFinset_le n hn
      _ ≤ (n.toNat + 1) * (n.toNat + 1) + 1 := by
          have := Nat.mul_le_mul (show n.toNat ≤ n.toNat + 1 by omega)
            (show n.toNat ≤ n.toNat + 1 by omega)
          omega
  obtain ⟨L, hLeq, hLmem, hLcompl, hLpair⟩ := fareyLoop_spec n hn
    ((n.toNat + 1) * (n.toNat + 1) + 1) 0 1 1 n le_rfl zero_le_one le_rfl hn hn le_rfl
    (by ring) (by omega) hfuel
  refine ⟨L, ?_, ?_, hLpair, ?_⟩
  · rw [farey_default_eq n hn]
    exact hLeq
  · have hnodup : L.Nodup := by
      refine hLpair.imp ?_
      intro x y hxy
      intro hxyeq
      subst hxyeq
      unfold fractLt at hxy
      have := mul_comm x.1 x.2
      omega
    have htofin : L.toFinset = fareyFinset n := by
      ext x
      rw [List.mem_toFinset]
      constructor
      · intro hx
        exact (hLmem x hx).1
      · intro hxS
        apply hLcompl x hxS
        have hx0 : 0 ≤ x.1 := (mem_fareyFinset.mp hxS).1
        have e1 : (0 : ℤ) * x.2 = 0 := zero_mul x.2
        have e2 : (1 : ℤ) * x.1 = x.1 := one_mul x.1
        omega
    have hcard := List.toFinset_card_of_nodup hnodup
    rw [htofin, card_fareyFinset n hn] at hcard
    omega
  · intro x hx
    obtain ⟨hxS, _⟩ := hLmem x hx
    obtain ⟨h1, h2, h3, h4, h5⟩ := mem_fareyFinset.mp hxS
    exact ⟨h2, h3, h5⟩

/-- Witness for C2 at `n = 4`: the fourth Farey sequence, of length
`1 + φ(1) + φ(2) + φ(3) + φ(4) = 7`. -/
theorem farey_correct_witness :
    ∃ L, farey 4 (0, 1) (1, 1) = some L
      ∧ L.length = 1 + ∑ q ∈ Finset.Icc 1 (4 : ℤ).toNat, Nat.totient q
      ∧ L.Pairwise fractLt
      ∧ ∀ x ∈ L, 1 ≤ x.2 ∧ x.2 ≤ 4 ∧ Int.gcd x.1 x.2 = 1 :=
  farey_correct 4 (by norm_num)

end Pyutils
